import Mathlib

/-!
Verification of the jphb trace-to-profile analysis engine and benchmark
coverage selector.

The definitions below are shallow embeddings of the Python sources:

* `src/jphb/core/performance_analysis.py` — the call-stack aggregator
  (`PerformanceAnalysis.analyze` / `_process_line` / `_remove_outliers`),
  the trace assembler (`_process_trace_file` / `_batch_process_traces`).
* `src/jphb/core/benchmark_executor.py` — the greedy benchmark coverage
  selector (`__minimize_and_distribute_methods`).

Machine integers are modelled as `ℤ`/`ℕ`; Python float arithmetic on
durations and z-scores is modelled exactly over `ℚ` (with the spec-side
real-number reading over `ℝ` kept separate for comparison).
-/

namespace JPHB

/-- A parsed trace event, the payload of a wire line `[<ts>] S <m>` (ENTER)
or `[<ts>] E <m>` (EXIT).  Timestamps are modelled as `ℤ` because the
assembler adds a signed `log_time_difference` offset before the aggregator
consumes the line. -/
inductive Event where
  | enter (ts : ℤ) (method : String)
  | exit (ts : ℤ) (method : String)
deriving DecidableEq, Repr

/-- The mutable state threaded through `PerformanceAnalysis.analyze`:
one call stack (top of the Python deque = head here; each frame is
`(function, start time, accumulated child time)`) plus the per-method
accumulators `total_times`, `self_times` (`defaultdict(list)`, appended on
each matched EXIT) and `call_counts` (`defaultdict(int)`). -/
structure AnalysisState where
  stack : List (String × ℤ × ℤ)
  total_times : String → List ℤ
  self_times : String → List ℤ
  call_counts : String → ℕ

/-- The empty accumulator state built at the top of `analyze`. -/
def initState : AnalysisState :=
  { stack := [], total_times := fun _ => [], self_times := fun _ => [],
    call_counts := fun _ => 0 }

/-- Adding a completed child's total time to the parent frame (lines 81-83 of
`performance_analysis.py`: pop the parent, re-push it with
`parent_child_time + total_time`; a no-op when the stack is empty). -/
def bumpChild (total : ℤ) : List (String × ℤ × ℤ) → List (String × ℤ × ℤ)
  | [] => []
  | (pf, ps, pc) :: rest => (pf, ps, pc + total) :: rest

/-- `PerformanceAnalysis._process_line`, on an already-parsed event.
On ENTER: push `(function, ts, 0)` and bump `call_counts`.  On EXIT: only
when the stack is non-empty and its top holds the same method, pop it,
append `total = ts - start` to `total_times` and `total - child` to
`self_times`, and charge `total` to the parent frame; otherwise the event
is discarded and the state returned unchanged. -/
def processEvent (st : AnalysisState) (e : Event) : AnalysisState :=
  match e with
  | .enter ts f =>
      { st with
        stack := (f, ts, 0) :: st.stack,
        call_counts := fun x => if x = f then st.call_counts f + 1 else st.call_counts x }
  | .exit ts f =>
      match st.stack with
      | [] => st
      | (g, start, child) :: rest =>
          if g = f then
            let total := ts - start
            { st with
              stack := bumpChild total rest,
              total_times := fun x =>
                if x = f then st.total_times f ++ [total] else st.total_times x,
              self_times := fun x =>
                if x = f then st.self_times f ++ [total - child] else st.self_times x }
          else st

/-- Folding `_process_line` over a list of events from a given state. -/
def processFrom (st : AnalysisState) (evs : List Event) : AnalysisState :=
  evs.foldl processEvent st

/-- Processing a whole event sequence from the empty state, as `analyze`
does with the single `call_stack` it creates before its loop. -/
def processEvents (evs : List Event) : AnalysisState :=
  processFrom initState evs

/-- `analyze` consumes the lines of `_batch_process_traces`, which yields
the sessions one after the other; a single call stack and single
accumulator set serve the whole concatenation. -/
def analyzeEvents (sessions : List (List Event)) : AnalysisState :=
  processEvents sessions.flatten

/-- Recording a completed child call's total time with its parent frame
(specification side of `bumpChild`: the individual child totals are kept,
not just their sum). -/
def bumpKids (total : ℤ) : List (String × ℤ × List ℤ) → List (String × ℤ × List ℤ)
  | [] => []
  | (pf, ps, pkids) :: rr => (pf, ps, pkids ++ [total]) :: rr

/-- Specification-side list of matched invocations.  Each record is
`(method, enterTs, exitTs, childTotals)` for one ENTER/EXIT pair matched by
the stack discipline, where `childTotals` lists the total times of the
child calls that completed while this invocation was on top of the stack
under them.  The first argument is the pending (not yet exited) frames,
each carrying the child totals recorded so far. -/
def matchedCalls : List (String × ℤ × List ℤ) → List Event → List (String × ℤ × ℤ × List ℤ)
  | _, [] => []
  | stk, .enter ts f :: rest => matchedCalls ((f, ts, []) :: stk) rest
  | stk, .exit ts f :: rest =>
      match stk with
      | [] => matchedCalls [] rest
      | (g, s, kids) :: stk' =>
          if g = f then (f, s, ts, kids) :: matchedCalls (bumpKids (ts - s) stk') rest
          else matchedCalls ((g, s, kids) :: stk') rest

/-- Projection of a specification stack frame onto the code's frame: the
code keeps only the running sum of the child totals. -/
def specToCode (stk : List (String × ℤ × List ℤ)) : List (String × ℤ × ℤ) :=
  stk.map (fun q => (q.1, q.2.1, q.2.2.sum))

/-- The matched invocations of one method, each as its total time
`exitTs - enterTs`. -/
def totalsOf (m : String) (recs : List (String × ℤ × ℤ × List ℤ)) : List ℤ :=
  recs.filterMap (fun r => if r.1 = m then some (r.2.2.1 - r.2.1) else none)

/-- The matched invocations of one method, each as its self time: total
time minus the sum of the total times of its completed child calls. -/
def selfsOf (m : String) (recs : List (String × ℤ × ℤ × List ℤ)) : List ℤ :=
  recs.filterMap (fun r => if r.1 = m then some ((r.2.2.1 - r.2.1) - r.2.2.2.sum) else none)

/-- Sample mean over `ℚ`, the exact value of `numpy`'s float mean used
inside `scipy.stats.zscore`. -/
def meanQ (data : List ℤ) : ℚ :=
  (data.map (fun d : ℤ => (d : ℚ))).sum / data.length

/-- Population variance over `ℚ` (the square of the `ddof = 0` standard
deviation `scipy.stats.zscore` divides by). -/
def varQ (data : List ℤ) : ℚ :=
  (data.map (fun d : ℤ => ((d : ℚ) - meanQ data) ^ 2)).sum / data.length

/-- The keep-condition of `_remove_outliers`: the sample's z-score
satisfies `|z| < 3.0`.  Exact-arithmetic rendering of the float test
`np.abs(stats.zscore(data)) < 3.0`: for positive standard deviation,
`|d - mean| / std < 3` iff `(d - mean)^2 < 9 * variance`; for zero
standard deviation the float z-scores are NaN, the comparison `z < 3.0`
is false, and here likewise `(d - mean)^2 = 0 < 9 * 0` is false. -/
def zKeep (data : List ℤ) (d : ℤ) : Bool :=
  decide (((d : ℚ) - meanQ data) ^ 2 < 9 * varQ data)

/-- `PerformanceAnalysis._remove_outliers`: lists of fewer than 2 samples
are returned unchanged; otherwise keep exactly the samples passing the
z-score test, in order. -/
def removeOutliers (data : List ℤ) : List ℤ :=
  if data.length < 2 then data else data.filter (fun d => zKeep data d)

/-- Specification-side sample mean over the reals. -/
noncomputable def meanR (data : List ℤ) : ℝ :=
  (data.map (fun d : ℤ => (d : ℝ))).sum / data.length

/-- Specification-side population variance over the reals. -/
noncomputable def varR (data : List ℤ) : ℝ :=
  (data.map (fun d : ℤ => ((d : ℝ) - meanR data) ^ 2)).sum / data.length

/-- One row of `analyze`'s output dictionary. -/
structure MethodStats where
  total_execution_time : ℤ
  self_execution_time : ℤ
  average_self_time : ℚ
  cumulative_execution_time : ℤ
  min_execution_time : ℤ
  max_execution_time : ℤ
  call_count : ℕ
deriving DecidableEq, Repr

/-- The all-zero row `analyze` emits when every data point of a method was
considered an outlier. -/
def zeroStats : MethodStats :=
  { total_execution_time := 0, self_execution_time := 0, average_self_time := 0,
    cumulative_execution_time := 0, min_execution_time := 0,
    max_execution_time := 0, call_count := 0 }

/-- `np.min` over a non-empty list (`0` is never used: the caller checks
non-emptiness first). -/
def listMin : List ℤ → ℤ
  | [] => 0
  | x :: xs => xs.foldl min x

/-- `np.max` over a non-empty list. -/
def listMax : List ℤ → ℤ
  | [] => 0
  | x :: xs => xs.foldl max x

/-- The output row `analyze` builds for one method appearing in
`total_times`: outlier-filter both sample lists, then either the real
statistics (when both cleaned lists are non-empty, Python truthiness) or
the all-zero row.  Methods with no matched call have no `total_times`
entry and hence no output row (`none`). -/
def analyzeOutput (sessions : List (List Event)) (m : String) : Option MethodStats :=
  let st := analyzeEvents sessions
  if st.total_times m = [] then none
  else
    let ct := removeOutliers (st.total_times m)
    let cs := removeOutliers (st.self_times m)
    if ct ≠ [] ∧ cs ≠ [] then
      some { total_execution_time := ct.sum,
             self_execution_time := cs.sum,
             average_self_time := (cs.map (fun d : ℤ => (d : ℚ))).sum / cs.length,
             cumulative_execution_time := ct.sum,
             min_execution_time := listMin ct,
             max_execution_time := listMax ct,
             call_count := ct.length }
    else some zeroStats

/-- Specification-side (section 9 strategy, not what the code does):
process each session through a freshly-reset aggregator and concatenate
the per-method raw totals of the sessions. -/
def resetTotalTimes (sessions : List (List Event)) (m : String) : List ℤ :=
  (sessions.map (fun s => (processEvents s).total_times m)).flatten

/-! ## Trace assembler (`_process_trace_file` / `_batch_process_traces`) -/

/-- Decimal digits to a number, `int(...)` on the regex group. -/
def digitsToNat (ds : List Char) : ℕ :=
  ds.foldl (fun acc c => 10 * acc + (c.toNat - 48)) 0

/-- The wire grammar `\[(\d+)\] (S|E) (.+)` matched at the start of a line
(`re.match` semantics): a literal `[`, a maximal non-empty digit run, `]`,
a space, `S` or `E`, a space, then at least one character up to the end of
the line (`.` does not cross a newline).  Returns the timestamp, whether
the line is an ENTER (`S`), and the method token. -/
def parseChars : List Char → Option (ℕ × Bool × String)
  | '[' :: rest =>
      let ds := rest.takeWhile (fun c => c.isDigit)
      if ds = [] then none
      else
        match rest.drop ds.length with
        | ']' :: ' ' :: k :: ' ' :: ms =>
            if k = 'S' ∨ k = 'E' then
              let tok := ms.takeWhile (fun c => c ≠ '\n')
              if tok = [] then none
              else some (digitsToNat ds, k = 'S', String.mk tok)
            else none
        | _ => none
  | _ => none

/-- `general_pattern.match(line)` with its three groups. -/
def parseLine (line : String) : Option (ℕ × Bool × String) :=
  parseChars line.toList

/-- Inversion of the metadata's `method_signature_hash` dictionary
(`{v: k for k, v in metadata['method_signature_hash'].items()}`) followed
by `.get(method, method)`: the pairs are `(fullSignature, shortToken)` in
insertion order, a later binding of the same token overwrites an earlier
one, and an unknown token passes through verbatim. -/
def invGet (pairs : List (String × String)) (tok : String) : String :=
  match pairs.reverse.find? (fun p => p.2 = tok) with
  | some p => p.1
  | none => tok

/-- One capture session's metadata sidecar: `log_time_difference` and the
`method_signature_hash` entries in insertion order. -/
structure Metadata where
  log_time_difference : ℤ
  method_signature_hash : List (String × String)

/-- Re-rendering of an adjusted event as the f-string
`f'[{time}] {start_or_end} {method}'`. -/
def renderLine (t : ℤ) (isEnter : Bool) (m : String) : String :=
  "[" ++ toString t ++ "] " ++ (if isEnter then "S" else "E") ++ " " ++ m

/-- The adjusted event a matched line contributes:
`time = int(ts) + log_time_difference` and
`method = method_signature_hash.get(token, token)`. -/
def adjustLine (md : Metadata) (line : String) : Option (ℤ × Bool × String) :=
  (parseLine line).map
    (fun r => ((r.1 : ℤ) + md.log_time_difference, r.2.1,
               invGet md.method_signature_hash r.2.2))

/-- `PerformanceAnalysis._process_trace_file`: every line matching the
grammar yields exactly one re-rendered line; non-matching lines yield
nothing. -/
def processTraceFile (md : Metadata) (lines : List String) : List String :=
  lines.filterMap
    (fun line => (adjustLine md line).map (fun r => renderLine r.1 r.2.1 r.2.2))

/-- One capture session as `_batch_process_traces` sees it: the log lines
and, when the matching `.json` file exists, its metadata. -/
structure Session where
  trace : List String
  metadata : Option Metadata

/-- `PerformanceAnalysis._batch_process_traces`: sessions are processed in
turn; a log file whose metadata file does not exist is skipped entirely. -/
def batchProcessTraces (sessions : List Session) : List String :=
  (sessions.map
    (fun s => match s.metadata with
              | some md => processTraceFile md s.trace
              | none => [])).flatten

/-! ## Benchmark coverage selector (`__minimize_and_distribute_methods`) -/

/-- One candidate benchmark as the selector sees it: its name (a key of
the `benchmarks` dict), its `targets` dict as `(commitId, methods)` items
in insertion order, and its measured probe `duration`. -/
structure Bench where
  name : String
  targets : List (String × List String)
  duration : ℚ
deriving DecidableEq, Repr

/-- The number of not-yet-covered target methods a benchmark would add:
`sum(len(set(methods) - covered_methods[commit_id]) for commit_id, methods
in targets.items())`. -/
def newCount (covered : String → Finset String) (b : Bench) : ℕ :=
  (b.targets.map (fun p => (p.2.toFinset \ covered p.1).card)).sum

/-- The sort order of the selection loop: Python's stable
`sorted(..., key=lambda x: (-newCoverageCount x, duration x))`. -/
def benchLE (covered : String → Finset String) (a b : Bench) : Bool :=
  decide (newCount covered b < newCount covered a ∨
          (newCount covered a = newCount covered b ∧ a.duration ≤ b.duration))

/-- Stable insertion: `x` is placed before the first element it compares
`≤` to, so elements comparing equal keep their original relative order. -/
def stableInsert (le : Bench → Bench → Bool) (x : Bench) : List Bench → List Bench
  | [] => [x]
  | y :: ys => if le x y then x :: y :: ys else y :: stableInsert le x ys

/-- Python's `sorted(...)`: a stable sort with respect to the total
preorder `le` (any two stable sorts for the same preorder agree, so an
insertion sort is an exact model of CPython's timsort output). -/
def stableSort (le : Bench → Bench → Bool) (l : List Bench) : List Bench :=
  l.foldr (stableInsert le) []

/-- `min(benchmarks, key=lambda x: x[2])` over a non-empty list: the first
element of minimal duration. -/
def minDur (b : Bench) (l : List Bench) : Bench :=
  l.foldl (fun acc x => if x.duration < acc.duration then x else acc) b

/-- Lines 771-787: take the top of the sorted list, gather the other
benchmarks of equal `newCoverageCount`, and substitute the fastest of them
when the top's duration exceeds twice the fastest alternative's. -/
def selectAlt (covered : String → Finset String) (best : Bench) (rest : List Bench) : Bench :=
  match rest.filter (fun b => newCount covered b = newCount covered best) with
  | [] => best
  | a :: others =>
      let m := minDur a others
      if best.duration > m.duration * 2 then m else best

/-- The benchmark one iteration of the loop commits to, given the current
covered sets: the head of the stable sort, possibly replaced by a faster
equal-coverage alternative. -/
def chooseBenchmark (covered : String → Finset String) (benchs : List Bench) : Option Bench :=
  match stableSort (benchLE covered) benchs with
  | [] => none
  | best :: rest => some (selectAlt covered best rest)

/-- The selector's loop state: the remaining benchmark list
(`sorted_benchmarks`), the per-commit covered sets (`covered_methods`) and
the assignment built so far (`selected_benchmarks`, commit → benchmark
name → assigned methods). -/
structure SelState where
  benchs : List Bench
  covered : String → Finset String
  selected : String → String → Finset String

/-- Lines 790-810: walk the chosen benchmark's targets; for each commit
with new methods, assign them to the benchmark, mark them covered and
remember that something was added. -/
def addTargets (bname : String) (ps : List (String × List String))
    (σ : SelState) (added : Bool) : SelState × Bool :=
  match ps with
  | [] => (σ, added)
  | p :: rest =>
      let nm := p.2.toFinset \ σ.covered p.1
      if nm = ∅ then addTargets bname rest σ added
      else
        addTargets bname rest
          { σ with
            covered := fun c => if c = p.1 then σ.covered p.1 ∪ nm else σ.covered c,
            selected := fun c bn =>
              if c = p.1 ∧ bn = bname then σ.selected p.1 bname ∪ nm
              else σ.selected c bn }
          true

/-- One pass of the `while` body: re-sort, pick the benchmark, distribute
its new methods, and drop it from the list when it added coverage.  `none`
models the `IndexError` Python would raise on an empty benchmark list. -/
def selStep (σ : SelState) : Option SelState :=
  match stableSort (benchLE σ.covered) σ.benchs with
  | [] => none
  | best :: rest =>
      let sortedB := best :: rest
      let chosen := selectAlt σ.covered best rest
      let r := addTargets chosen.name chosen.targets { σ with benchs := sortedB } false
      some (if r.2 then { r.1 with benchs := sortedB.filter (fun b => b.name ≠ chosen.name) }
            else r.1)

/-- The guard of the `while` loop:
`any(covered_methods[c] != all_methods[c] for c in all_methods)`. -/
def selGuard (cids : List String) (allM : String → Finset String)
    (covered : String → Finset String) : Bool :=
  cids.any (fun c => decide (covered c ≠ allM c))

/-- The `while` loop with explicit fuel; `none` models a run that has not
returned after `fuel` iterations (Python has no exit of its own for that
case: it would loop forever or die on an empty list). -/
def selLoop (cids : List String) (allM : String → Finset String) :
    ℕ → SelState → Option SelState
  | 0, σ => if selGuard cids allM σ.covered then none else some σ
  | fuel + 1, σ =>
      if selGuard cids allM σ.covered then (selStep σ).bind (selLoop cids allM fuel)
      else some σ

/-- The commits of `all_methods`, in first-appearance order (Python dict
insertion order). -/
def commitIds (benchs : List Bench) : List String :=
  ((benchs.map Bench.targets).flatten.map Prod.fst).dedup

/-- `all_methods[c]`: the union of every benchmark's target methods for
commit `c`. -/
def allMethods (benchs : List Bench) (c : String) : Finset String :=
  (benchs.map Bench.targets).flatten.foldr
    (fun p s => if p.1 = c then p.2.toFinset ∪ s else s) ∅

/-- `__minimize_and_distribute_methods`: the initial `sorted(...)` call
orders the tuples by benchmark name (names are unique dict keys, so the
comparison never reaches the later components), then the loop runs; the
fuel `benchs.length` reflects that each productive iteration removes the
chosen benchmark. -/
def minimizeAndDistribute (benchs : List Bench) : Option SelState :=
  let ordered := stableSort (fun a b => a.name ≤ b.name) benchs
  selLoop (commitIds benchs) (allMethods benchs) benchs.length
    { benchs := ordered, covered := fun _ => ∅, selected := fun _ _ => ∅ }

/-- The loop invariant of the selection `while` loop (proof infrastructure,
not part of the embedded code): benchmark names are unique (they are dict
keys), every still-uncovered target method is reachable through some
remaining benchmark, the covered sets stay inside the per-commit target
union, and every remaining benchmark's targets lie inside it too. -/
def SelInv (allM : String → Finset String) (σ : SelState) : Prop :=
  (σ.benchs.map Bench.name).Nodup ∧
  (∀ c m, m ∈ allM c → m ∉ σ.covered c →
      ∃ b ∈ σ.benchs, ∃ p ∈ b.targets, p.1 = c ∧ m ∈ p.2) ∧
  (∀ c, σ.covered c ⊆ allM c) ∧
  (∀ b ∈ σ.benchs, ∀ p ∈ b.targets, ∀ m ∈ p.2, m ∈ allM p.1)

end JPHB

/-! ## Lemmas: call-stack aggregator -/

namespace JPHB

theorem processFrom_nil (st : AnalysisState) : processFrom st [] = st := rfl

theorem processFrom_cons (st : AnalysisState) (e : Event) (evs : List Event) :
    processFrom st (e :: evs) = processFrom (processEvent st e) evs := rfl

theorem totalsOf_nil (m : String) : totalsOf m [] = [] := rfl

theorem totalsOf_cons (m : String) (r : String × ℤ × ℤ × List ℤ)
    (recs : List (String × ℤ × ℤ × List ℤ)) :
    totalsOf m (r :: recs) =
      if r.1 = m then (r.2.2.1 - r.2.1) :: totalsOf m recs else totalsOf m recs := by
  by_cases h : r.1 = m <;> simp [totalsOf, List.filterMap_cons, h]

theorem selfsOf_nil (m : String) : selfsOf m [] = [] := rfl

theorem selfsOf_cons (m : String) (r : String × ℤ × ℤ × List ℤ)
    (recs : List (String × ℤ × ℤ × List ℤ)) :
    selfsOf m (r :: recs) =
      if r.1 = m then ((r.2.2.1 - r.2.1) - r.2.2.2.sum) :: selfsOf m recs
      else selfsOf m recs := by
  by_cases h : r.1 = m <;> simp [selfsOf, List.filterMap_cons, h]

theorem processFrom_spec (evs : List Event) :
    ∀ (st : AnalysisState) (stk : List (String × ℤ × List ℤ)),
      st.stack = specToCode stk →
      ∀ m, (processFrom st evs).total_times m
              = st.total_times m ++ totalsOf m (matchedCalls stk evs) ∧
           (processFrom st evs).self_times m
              = st.self_times m ++ selfsOf m (matchedCalls stk evs) := by
  induction evs with
  | nil =>
      intro st stk h m
      simp [processFrom_nil, matchedCalls, totalsOf_nil, selfsOf_nil]
  | cons e rest ih =>
      intro st stk h m
      rw [processFrom_cons]
      cases e with
      | enter ts f =>
          have h' : (processEvent st (.enter ts f)).stack = specToCode ((f, ts, []) :: stk) := by
            simp [processEvent, specToCode, h]
          have hmain := ih (processEvent st (.enter ts f)) ((f, ts, []) :: stk) h' m
          simpa [processEvent, matchedCalls] using hmain
      | exit ts f =>
          cases stk with
          | nil =>
              simp [specToCode] at h
              have hpe : processEvent st (.exit ts f) = st := by
                simp [processEvent, h]
              rw [hpe]
              have hmain := ih st [] (by simp [specToCode, h]) m
              simpa [matchedCalls] using hmain
          | cons top stk' =>
              obtain ⟨g, s, kids⟩ := top
              have hst : st.stack = (g, s, kids.sum) :: specToCode stk' := by
                simpa [specToCode] using h
              by_cases hgf : g = f
              · subst hgf
                have hpe : processEvent st (.exit ts g) =
                    { st with
                      stack := bumpChild (ts - s) (specToCode stk'),
                      total_times := fun x =>
                        if x = g then st.total_times g ++ [ts - s] else st.total_times x,
                      self_times := fun x =>
                        if x = g then st.self_times g ++ [(ts - s) - kids.sum]
                        else st.self_times x } := by
                  simp [processEvent, hst]
                have hstk : (bumpChild (ts - s) (specToCode stk')) =
                    specToCode (bumpKids (ts - s) stk') := by
                  cases stk' with
                  | nil => simp [bumpChild, bumpKids, specToCode]
                  | cons q rr =>
                      obtain ⟨pf, ps, pkids⟩ := q
                      simp [bumpChild, bumpKids, specToCode]
                have hmatched : matchedCalls ((g, s, kids) :: stk') (.exit ts g :: rest) =
                    (g, s, ts, kids) :: matchedCalls (bumpKids (ts - s) stk') rest := by
                  simp [matchedCalls]
                rw [hpe, hmatched, totalsOf_cons, selfsOf_cons]
                have hmain := ih (processEvent st (.exit ts g)) (bumpKids (ts - s) stk')
                  (by rw [hpe]; exact hstk) m
                rw [hpe] at hmain
                by_cases hmf : m = g
                · subst hmf
                  simpa [List.append_assoc] using hmain
                · simpa [Ne.symm hmf, hmf] using hmain
              · have hpe : processEvent st (.exit ts f) = st := by
                  simp [processEvent, hst, hgf]
                rw [hpe]
                have hmatched : matchedCalls ((g, s, kids) :: stk') (.exit ts f :: rest) =
                    matchedCalls ((g, s, kids) :: stk') rest := by
                  simp [matchedCalls, hgf]
                rw [hmatched]
                exact ih st ((g, s, kids) :: stk') h m

end JPHB

namespace JPHB

/-- Claim C3: for every finite event sequence, each method's list of total
times is exactly `exit − enter` over its matched invocations, and its list
of self times is exactly `total − (sum of the total times of the child
calls completed while the invocation was on top of it on the stack)`; in
particular, for `A enters, B enters, B exits, A exits`,
`selfTime[A] = totalTime[A] − totalTime[B]` and
`selfTime[B] = totalTime[B]`. -/
theorem C3_total_and_self_times :
    (∀ (evs : List Event) (m : String),
        (processEvents evs).total_times m = totalsOf m (matchedCalls [] evs) ∧
        (processEvents evs).self_times m = selfsOf m (matchedCalls [] evs)) ∧
    (∀ (A B : String) (tA tB tB' tA' : ℤ), A ≠ B →
        (processEvents [.enter tA A, .enter tB B, .exit tB' B, .exit tA' A]).total_times A
            = [tA' - tA] ∧
        (processEvents [.enter tA A, .enter tB B, .exit tB' B, .exit tA' A]).total_times B
            = [tB' - tB] ∧
        ((processEvents [.enter tA A, .enter tB B, .exit tB' B, .exit tA' A]).self_times A).sum
            = ((processEvents [.enter tA A, .enter tB B, .exit tB' B, .exit tA' A]).total_times A).sum
              - ((processEvents [.enter tA A, .enter tB B, .exit tB' B, .exit tA' A]).total_times B).sum ∧
        ((processEvents [.enter tA A, .enter tB B, .exit tB' B, .exit tA' A]).self_times B).sum
            = ((processEvents [.enter tA A, .enter tB B, .exit tB' B, .exit tA' A]).total_times B).sum) := by
  constructor
  · intro evs m
    have h := processFrom_spec evs initState [] (by simp [initState, specToCode]) m
    simpa [processEvents, initState] using h
  · intro A B tA tB tB' tA' hAB
    have hBA : B ≠ A := Ne.symm hAB
    simp [processEvents, processFrom, processEvent, initState, bumpChild, hAB, hBA]

end JPHB

namespace JPHB

/-- Witness for C3 at the concrete nested sequence
`A enters at 0, B enters at 1, B exits at 3, A exits at 10`. -/
theorem C3_total_and_self_times_witness :
    (processEvents [.enter 0 "A", .enter 1 "B", .exit 3 "B", .exit 10 "A"]).total_times "A"
        = [10 - 0] ∧
    (processEvents [.enter 0 "A", .enter 1 "B", .exit 3 "B", .exit 10 "A"]).total_times "B"
        = [3 - 1] ∧
    ((processEvents [.enter 0 "A", .enter 1 "B", .exit 3 "B", .exit 10 "A"]).self_times "A").sum
        = ((processEvents [.enter 0 "A", .enter 1 "B", .exit 3 "B", .exit 10 "A"]).total_times "A").sum
          - ((processEvents [.enter 0 "A", .enter 1 "B", .exit 3 "B", .exit 10 "A"]).total_times "B").sum ∧
    ((processEvents [.enter 0 "A", .enter 1 "B", .exit 3 "B", .exit 10 "A"]).self_times "B").sum
        = ((processEvents [.enter 0 "A", .enter 1 "B", .exit 3 "B", .exit 10 "A"]).total_times "B").sum :=
  C3_total_and_self_times.2 "A" "B" 0 1 3 10 (by decide)

/-- Claim C5: an EXIT event whose method does not match the top of the
call stack (or arriving on an empty stack) is discarded: the whole
analysis state — stack, total and self time lists, call counts — is
returned unchanged, and no exception path exists. -/
theorem C5_unmatched_exit_discarded (st : AnalysisState) (ts : ℤ) (f : String)
    (h : st.stack = [] ∨ ∃ g s c rest, st.stack = (g, s, c) :: rest ∧ g ≠ f) :
    processEvent st (.exit ts f) = st := by
  rcases h with h | ⟨g, s, c, rest, h, hgf⟩
  · simp [processEvent, h]
  · simp [processEvent, h, hgf]

/-- Witness for C5: an EXIT for `B` while `A` is on top of the stack
leaves the state untouched. -/
theorem C5_unmatched_exit_discarded_witness :
    processEvent (processEvents [.enter 0 "A"]) (.exit 5 "B")
      = processEvents [.enter 0 "A"] :=
  C5_unmatched_exit_discarded (processEvents [.enter 0 "A"]) 5 "B"
    (Or.inr ⟨"A", 0, 0, [], rfl, by decide⟩)

/-- Counterexample to claim C6: `analyze` does not reset its call stack at
session boundaries.  Processing the session `[ENTER A at 0]` leaves a
frame on the stack, and with the session list
`[[ENTER A at 0], [EXIT A at 10]]` that frame is popped by the EXIT of the
second session, recording the cross-session duration `10`; the per-session
reset strategy of the specification would record nothing. -/
theorem C6_counterexample :
    (processEvents [.enter 0 "A"]).stack ≠ [] ∧
    (analyzeEvents [[.enter 0 "A"], [.exit 10 "A"]]).total_times "A" = [10] ∧
    resetTotalTimes [[.enter 0 "A"], [.exit 10 "A"]] "A" = [] :=
  ⟨by decide, by decide, by decide⟩

/-- Amended claim C6: `analyze` shares one call stack across all capture
sessions — the sessions' event lists are concatenated and folded through a
single aggregator state, with no reset between sessions — so an ENTER left
pending by one session is matched by an EXIT of a later session and the
resulting duration spans the two sessions. -/
theorem C6_shared_call_stack :
    (∀ sessions : List (List Event), analyzeEvents sessions = processFrom initState sessions.flatten) ∧
    (∀ (t1 t2 : ℤ) (m : String),
        (analyzeEvents [[.enter t1 m], [.exit t2 m]]).total_times m = [t2 - t1]) := by
  constructor
  · intro sessions; rfl
  · intro t1 t2 m
    simp [analyzeEvents, processEvents, processFrom, processEvent, initState, bumpChild]

end JPHB


/-! ## Lemmas: outlier filter and analysis output -/

namespace JPHB

theorem listSum_intCast_ratCast (l : List ℤ) :
    (((l.map (fun d : ℤ => (d : ℚ))).sum : ℚ) : ℝ) = (l.map (fun d : ℤ => (d : ℝ))).sum := by
  induction l with
  | nil => simp
  | cons x xs ih =>
      rw [List.map_cons, List.sum_cons, List.map_cons, List.sum_cons, Rat.cast_add, ih,
          Rat.cast_intCast]

theorem listSum_sq_ratCast (l : List ℤ) (q : ℚ) :
    (((l.map (fun d : ℤ => ((d : ℚ) - q) ^ 2)).sum : ℚ) : ℝ)
      = (l.map (fun d : ℤ => ((d : ℝ) - (q : ℝ)) ^ 2)).sum := by
  induction l with
  | nil => simp
  | cons x xs ih =>
      rw [List.map_cons, List.sum_cons, List.map_cons, List.sum_cons, Rat.cast_add, ih,
          Rat.cast_pow, Rat.cast_sub, Rat.cast_intCast]

theorem meanQ_cast (l : List ℤ) : ((meanQ l : ℚ) : ℝ) = meanR l := by
  rw [meanQ, meanR, Rat.cast_div, listSum_intCast_ratCast, Rat.cast_natCast]

theorem varQ_cast (l : List ℤ) : ((varQ l : ℚ) : ℝ) = varR l := by
  rw [varQ, varR, Rat.cast_div, listSum_sq_ratCast, meanQ_cast, Rat.cast_natCast]

theorem varR_nonneg (l : List ℤ) : 0 ≤ varR l := by
  rw [varR]
  apply div_nonneg
  · apply List.sum_nonneg
    intro x hx
    obtain ⟨d, _, rfl⟩ := List.mem_map.1 hx
    positivity
  · exact Nat.cast_nonneg _

theorem abs_lt_three_sqrt_iff (x v : ℝ) (_hv : 0 ≤ v) :
    |x| < 3 * Real.sqrt v ↔ x ^ 2 < 9 * v := by
  have h9 : Real.sqrt (9 * v) = 3 * Real.sqrt v := by
    rw [show (9 : ℝ) * v = 3 ^ 2 * v by norm_num, Real.sqrt_mul (by positivity),
        Real.sqrt_sq (by norm_num)]
  rw [← h9, Real.lt_sqrt (abs_nonneg x), sq_abs]

theorem zKeep_iff_spec (data : List ℤ) (d : ℤ) :
    zKeep data d = true ↔ |(d : ℝ) - meanR data| < 3 * Real.sqrt (varR data) := by
  rw [zKeep, decide_eq_true_iff, abs_lt_three_sqrt_iff _ _ (varR_nonneg data),
      show ((d : ℝ) - meanR data) ^ 2 = ((((d : ℚ) - meanQ data) ^ 2 : ℚ) : ℝ) from by
        push_cast [meanQ_cast]; ring,
      show (9 : ℝ) * varR data = ((9 * varQ data : ℚ) : ℝ) from by
        push_cast [varQ_cast]; ring,
      Rat.cast_lt]

theorem analyzeOutput_zeroStats (sessions : List (List Event)) (m : String)
    (h1 : (analyzeEvents sessions).total_times m ≠ [])
    (h2 : removeOutliers ((analyzeEvents sessions).total_times m) = [] ∨
          removeOutliers ((analyzeEvents sessions).self_times m) = []) :
    analyzeOutput sessions m = some zeroStats := by
  have hcond : ¬(removeOutliers ((analyzeEvents sessions).total_times m) ≠ [] ∧
                 removeOutliers ((analyzeEvents sessions).self_times m) ≠ []) := by
    rcases h2 with h2 | h2
    · exact fun hc => hc.1 h2
    · exact fun hc => hc.2 h2
  rw [analyzeOutput]
  simp only [h1, if_neg, ite_not, if_pos]
  rw [if_neg hcond]
  simp

theorem listSum_cast_const (data : List ℤ) (c : ℤ) (hall : ∀ d ∈ data, d = c) :
    (data.map (fun d : ℤ => (d : ℚ))).sum = (data.length : ℚ) * (c : ℚ) := by
  induction data with
  | nil => simp
  | cons x xs ih =>
      rw [List.map_cons, List.sum_cons, ih (fun d hd => hall d (List.mem_cons_of_mem x hd)),
          hall x (List.mem_cons_self x xs), List.length_cons]
      push_cast
      ring

theorem meanQ_of_const (data : List ℤ) (c : ℤ) (hlen : data.length ≠ 0)
    (hall : ∀ d ∈ data, d = c) : meanQ data = (c : ℚ) := by
  rw [meanQ, listSum_cast_const data c hall]
  have h0 : (data.length : ℚ) ≠ 0 := by exact_mod_cast hlen
  field_simp

theorem removeOutliers_const (data : List ℤ) (c : ℤ) (hlen : 2 ≤ data.length)
    (hall : ∀ d ∈ data, d = c) : removeOutliers data = [] := by
  have hlen0 : data.length ≠ 0 := by omega
  have hmean := meanQ_of_const data c hlen0 hall
  have hvar : varQ data = 0 := by
    rw [varQ]
    have hz : (data.map (fun d : ℤ => ((d : ℚ) - meanQ data) ^ 2)).sum = 0 := by
      apply List.sum_eq_zero
      intro x hx
      obtain ⟨d, hd, rfl⟩ := List.mem_map.1 hx
      rw [hall d hd, hmean]
      ring
    rw [hz]
    simp
  rw [removeOutliers, if_neg (by omega)]
  apply List.filter_eq_nil_iff.2
  intro d hd
  rw [zKeep, hall d hd, hmean, hvar]
  simp

end JPHB

namespace JPHB

/-- Claim C7: a method with at least one matched call whose duration
samples are all discarded by the outlier filter still gets an output row,
with all statistics zero and `call_count = 0`, instead of being dropped
from the output map. -/
theorem C7_zero_profile_not_omitted (sessions : List (List Event)) (m : String)
    (h1 : (analyzeEvents sessions).total_times m ≠ [])
    (h2 : removeOutliers ((analyzeEvents sessions).total_times m) = [] ∨
          removeOutliers ((analyzeEvents sessions).self_times m) = []) :
    analyzeOutput sessions m = some zeroStats :=
  analyzeOutput_zeroStats sessions m h1 h2

/-- Witness for C7: two calls of `A` of identical duration 5; the z-score
filter discards both samples and the output row for `A` is the all-zero
profile, not `none`. -/
theorem C7_zero_profile_not_omitted_witness :
    analyzeOutput [[.enter 0 "A", .exit 5 "A", .enter 10 "A", .exit 15 "A"]] "A"
      = some zeroStats :=
  C7_zero_profile_not_omitted [[.enter 0 "A", .exit 5 "A", .enter 10 "A", .exit 15 "A"]] "A"
    (by decide)
    (Or.inl (by
      have htot : (analyzeEvents [[.enter 0 "A", .exit 5 "A", .enter 10 "A", .exit 15 "A"]]).total_times "A"
          = [5, 5] := by decide
      rw [htot]
      exact removeOutliers_const [5, 5] 5 (by decide) (by decide)))

/-- Claim C9: the outlier filter returns lists of fewer than 2 samples
unchanged; on 2 or more samples it keeps, in order, exactly the samples
whose z-score against the list's own mean and standard deviation satisfies
`|z| < 3.0` (the kept-sample test, stated over the reals with
`std = √variance`). -/
theorem C9_outlier_filter (data : List ℤ) :
    (data.length < 2 → removeOutliers data = data) ∧
    (2 ≤ data.length →
       removeOutliers data = data.filter (fun d => zKeep data d) ∧
       ∀ d : ℤ, zKeep data d = true ↔
         |(d : ℝ) - meanR data| < 3 * Real.sqrt (varR data)) := by
  constructor
  · intro h
    rw [removeOutliers, if_pos h]
  · intro h
    refine ⟨by rw [removeOutliers, if_neg (by omega)], fun d => zKeep_iff_spec data d⟩

/-- Witness for C9: a singleton list passes through unchanged, and a
2-sample list is exactly its z-score-filtered version. -/
theorem C9_outlier_filter_witness :
    removeOutliers [7] = [7] ∧
    removeOutliers [0, 10] = [0, 10].filter (fun d => zKeep [0, 10] d) :=
  ⟨(C9_outlier_filter [7]).1 (by decide), ((C9_outlier_filter [0, 10]).2 (by decide)).1⟩

/-- Claim C10: on 2 or more all-equal samples the z-scores are NaN in the
code (zero standard deviation) and the keep-condition fails for every
sample, so the filter returns the empty list; consequently a method whose
matched calls all took exactly the same time is reported with the
all-zero, `call_count = 0` profile. -/
theorem C10_equal_samples_all_discarded :
    (∀ (data : List ℤ) (c : ℤ), 2 ≤ data.length → (∀ d ∈ data, d = c) →
        removeOutliers data = []) ∧
    (∀ (sessions : List (List Event)) (m : String) (c : ℤ),
        2 ≤ ((analyzeEvents sessions).total_times m).length →
        (∀ d ∈ (analyzeEvents sessions).total_times m, d = c) →
        analyzeOutput sessions m = some zeroStats) := by
  constructor
  · exact fun data c h hall => removeOutliers_const data c h hall
  · intro sessions m c hlen hall
    apply analyzeOutput_zeroStats sessions m
    · intro hnil
      rw [hnil] at hlen
      simp at hlen
    · exact Or.inl (removeOutliers_const _ c hlen hall)

/-- Witness for C10: the two equal samples `[5, 5]` are both discarded,
and the corresponding analysis reports the all-zero profile. -/
theorem C10_equal_samples_all_discarded_witness :
    removeOutliers [5, 5] = [] ∧
    analyzeOutput [[.enter 0 "A", .exit 5 "A", .enter 10 "A", .exit 15 "A"]] "A"
      = some zeroStats :=
  ⟨C10_equal_samples_all_discarded.1 [5, 5] 5 (by decide) (by decide),
   C10_equal_samples_all_discarded.2 [[.enter 0 "A", .exit 5 "A", .enter 10 "A", .exit 15 "A"]]
     "A" 5 (by decide) (by decide)⟩

end JPHB

/-! ## Trace assembler theorems -/

namespace JPHB

/-- Claim C8: a raw log line matching `[<ts>] <S|E> <token>` contributes
exactly one re-rendered event line with timestamp `ts + logTimeOffset` and
method `invertedHash[token]`, or the token verbatim when absent; a
non-matching line contributes nothing; and a session whose log has no
matching metadata file is skipped entirely. -/
theorem C8_trace_assembler :
    (∀ (md : Metadata) (line : String) (t : ℕ) (k : Bool) (tok : String),
        parseLine line = some (t, k, tok) →
        adjustLine md line = some ((t : ℤ) + md.log_time_difference, k,
            invGet md.method_signature_hash tok) ∧
        processTraceFile md [line] =
          [renderLine ((t : ℤ) + md.log_time_difference) k
             (invGet md.method_signature_hash tok)]) ∧
    (∀ (md : Metadata) (line : String), parseLine line = none →
        processTraceFile md [line] = []) ∧
    (∀ (pairs : List (String × String)) (tok : String),
        (∀ p ∈ pairs, p.2 ≠ tok) → invGet pairs tok = tok) ∧
    (∀ (pre post : List (String × String)) (full tok : String),
        (∀ p ∈ post, p.2 ≠ tok) →
        invGet (pre ++ (full, tok) :: post) tok = full) ∧
    (∀ trace : List String, batchProcessTraces [⟨trace, none⟩] = []) := by
  refine ⟨?_, ?_, ?_, ?_, ?_⟩
  · intro md line t k tok h
    constructor
    · simp [adjustLine, h]
    · rw [processTraceFile]
      simp [adjustLine, h]
  · intro md line h
    rw [processTraceFile]
    simp [adjustLine, h]
  · intro pairs tok h
    rw [invGet]
    have : pairs.reverse.find? (fun p => p.2 = tok) = none :=
      List.find?_eq_none.2 (fun p hp => by
        simp only [decide_eq_true_iff]
        exact h p (List.mem_reverse.1 hp))
    rw [this]
  · intro pre post full tok h
    rw [invGet, List.reverse_append, List.reverse_cons, List.append_assoc,
        List.find?_append]
    have hpost : post.reverse.find? (fun p => p.2 = tok) = none :=
      List.find?_eq_none.2 (fun p hp => by
        simp only [decide_eq_true_iff]
        exact h p (List.mem_reverse.1 hp))
    rw [hpost]
    simp [List.find?]
  · intro trace
    rw [batchProcessTraces]
    simp

/-- Witness for C8 on the line `[5] S ab` with offset 7 and the hash entry
`x.y(z) ↦ ab`, plus a non-matching line, an unknown token and a
metadata-less session. -/
theorem C8_trace_assembler_witness :
    processTraceFile ⟨7, [("x.y(z)", "ab")]⟩ ["[5] S ab"]
        = [renderLine ((5 : ℤ) + 7) true (invGet [("x.y(z)", "ab")] "ab")] ∧
    processTraceFile ⟨7, [("x.y(z)", "ab")]⟩ ["no match"] = [] ∧
    invGet [("x.y(z)", "ab")] "cd" = "cd" ∧
    invGet ([] ++ ("x.y(z)", "ab") :: []) "ab" = "x.y(z)" ∧
    batchProcessTraces [⟨["[5] S ab"], none⟩] = [] :=
  ⟨(C8_trace_assembler.1 ⟨7, [("x.y(z)", "ab")]⟩ "[5] S ab" 5 true "ab" (by decide)).2,
   C8_trace_assembler.2.1 ⟨7, [("x.y(z)", "ab")]⟩ "no match" (by decide),
   C8_trace_assembler.2.2.1 [("x.y(z)", "ab")] "cd" (by decide),
   C8_trace_assembler.2.2.2.1 [] [] "x.y(z)" "ab" (by simp),
   C8_trace_assembler.2.2.2.2 ["[5] S ab"]⟩

end JPHB

/-! ## Lemmas: benchmark coverage selector -/

namespace JPHB

theorem stableInsert_perm (le : Bench → Bench → Bool) (x : Bench) (l : List Bench) :
    (stableInsert le x l).Perm (x :: l) := by
  induction l with
  | nil => simp [stableInsert]
  | cons y ys ih =>
      rw [stableInsert]
      split
      · exact List.Perm.refl _
      · exact (ih.cons y).trans (List.Perm.swap x y ys)

theorem stableSort_perm (le : Bench → Bench → Bool) (l : List Bench) :
    (stableSort le l).Perm l := by
  induction l with
  | nil => simp [stableSort]
  | cons x xs ih =>
      rw [stableSort, List.foldr_cons]
      exact (stableInsert_perm le x _).trans (ih.cons x)

theorem stableInsert_pairwise (le : Bench → Bench → Bool)
    (htrans : ∀ a b c, le a b = true → le b c = true → le a c = true)
    (htot : ∀ a b, le a b = true ∨ le b a = true)
    (x : Bench) (l : List Bench) (h : l.Pairwise (fun a b => le a b = true)) :
    (stableInsert le x l).Pairwise (fun a b => le a b = true) := by
  induction l with
  | nil => simp [stableInsert]
  | cons y ys ih =>
      rcases List.pairwise_cons.1 h with ⟨hy, hys⟩
      rw [stableInsert]
      by_cases hxy : le x y = true
      · rw [if_pos hxy]
        refine List.pairwise_cons.2 ⟨?_, h⟩
        intro z hz
        rcases List.mem_cons.1 hz with rfl | hz'
        · exact hxy
        · exact htrans x y z hxy (hy z hz')
      · rw [if_neg hxy]
        refine List.pairwise_cons.2 ⟨?_, ih hys⟩
        intro z hz
        have hz2 : z ∈ x :: ys := (stableInsert_perm le x ys).mem_iff.1 hz
        rcases List.mem_cons.1 hz2 with rfl | hz'
        · rcases htot z y with h1 | h1
          · exact absurd h1 hxy
          · exact h1
        · exact hy z hz'

theorem stableSort_pairwise (le : Bench → Bench → Bool)
    (htrans : ∀ a b c, le a b = true → le b c = true → le a c = true)
    (htot : ∀ a b, le a b = true ∨ le b a = true) (l : List Bench) :
    (stableSort le l).Pairwise (fun a b => le a b = true) := by
  induction l with
  | nil => simp [stableSort]
  | cons x xs ih =>
      rw [stableSort, List.foldr_cons]
      exact stableInsert_pairwise le htrans htot x _ ih

theorem stableSort_head_min (le : Bench → Bench → Bool)
    (htrans : ∀ a b c, le a b = true → le b c = true → le a c = true)
    (htot : ∀ a b, le a b = true ∨ le b a = true)
    (l : List Bench) (b : Bench) (rest : List Bench)
    (h : stableSort le l = b :: rest) :
    ∀ x ∈ l, x = b ∨ le b x = true := by
  intro x hx
  have hperm := stableSort_perm le l
  rw [h] at hperm
  have hpair := stableSort_pairwise le htrans htot l
  rw [h] at hpair
  rcases List.mem_cons.1 (hperm.mem_iff.2 hx) with rfl | hxr
  · exact Or.inl rfl
  · exact Or.inr (List.rel_of_pairwise_cons hpair hxr)

theorem benchLE_trans (covered : String → Finset String) :
    ∀ a b c : Bench, benchLE covered a b = true → benchLE covered b c = true →
      benchLE covered a c = true := by
  intro a b c hab hbc
  simp only [benchLE, decide_eq_true_iff] at hab hbc ⊢
  rcases hab with h1 | h1 <;> rcases hbc with h2 | h2
  · exact Or.inl (by omega)
  · exact Or.inl (by omega)
  · exact Or.inl (by omega)
  · exact Or.inr ⟨by omega, le_trans h1.2 h2.2⟩

theorem benchLE_total (covered : String → Finset String) :
    ∀ a b : Bench, benchLE covered a b = true ∨ benchLE covered b a = true := by
  intro a b
  simp only [benchLE, decide_eq_true_iff]
  rcases lt_trichotomy (newCount covered a) (newCount covered b) with h | h | h
  · exact Or.inr (Or.inl h)
  · rcases le_total a.duration b.duration with hd | hd
    · exact Or.inl (Or.inr ⟨h, hd⟩)
    · exact Or.inr (Or.inr ⟨h.symm, hd⟩)
  · exact Or.inl (Or.inl h)

theorem minDur_mem (b : Bench) (l : List Bench) : minDur b l ∈ b :: l := by
  induction l generalizing b with
  | nil => simp [minDur]
  | cons x xs ih =>
      have hrec : minDur b (x :: xs) = minDur (if x.duration < b.duration then x else b) xs := rfl
      rw [hrec]
      rcases List.mem_cons.1 (ih (if x.duration < b.duration then x else b)) with heq | hmem
      · rw [heq]
        split
        · exact List.mem_cons_of_mem b (List.mem_cons_self x xs)
        · exact List.mem_cons_self b (x :: xs)
      · exact List.mem_cons_of_mem b (List.mem_cons_of_mem x hmem)

theorem minDur_le (b : Bench) (l : List Bench) :
    ∀ x ∈ b :: l, (minDur b l).duration ≤ x.duration := by
  induction l generalizing b with
  | nil =>
      intro x hx
      rcases List.mem_cons.1 hx with rfl | hx'
      · exact le_refl _
      · exact absurd hx' (List.not_mem_nil x)
  | cons y ys ih =>
      intro x hx
      have hrec : minDur b (y :: ys) = minDur (if y.duration < b.duration then y else b) ys := rfl
      have hb : (if y.duration < b.duration then y else b).duration ≤ b.duration := by
        split
        · next hlt => exact le_of_lt hlt
        · exact le_refl _
      have hy : (if y.duration < b.duration then y else b).duration ≤ y.duration := by
        split
        · exact le_refl _
        · next hlt => exact le_of_not_lt hlt
      have hhead := ih (if y.duration < b.duration then y else b)
        (if y.duration < b.duration then y else b) (List.mem_cons_self _ _)
      rcases List.mem_cons.1 hx with rfl | hx'
      · rw [hrec]; exact le_trans hhead hb
      · rcases List.mem_cons.1 hx' with rfl | hx''
        · rw [hrec]; exact le_trans hhead hy
        · rw [hrec]; exact ih _ x (List.mem_cons_of_mem _ hx'')

theorem selectAlt_mem (covered : String → Finset String) (best : Bench) (rest : List Bench) :
    selectAlt covered best rest ∈ best :: rest := by
  rw [selectAlt]
  cases hft : rest.filter (fun b => newCount covered b = newCount covered best) with
  | nil => exact List.mem_cons_self _ _
  | cons a others =>
      simp only []
      split
      · have hm : minDur a others ∈ a :: others := minDur_mem a others
        rw [← hft] at hm
        exact List.mem_cons_of_mem best (List.mem_of_mem_filter hm)
      · exact List.mem_cons_self _ _

theorem selectAlt_count (covered : String → Finset String) (best : Bench) (rest : List Bench) :
    newCount covered (selectAlt covered best rest) = newCount covered best := by
  rw [selectAlt]
  cases hft : rest.filter (fun b => newCount covered b = newCount covered best) with
  | nil => rfl
  | cons a others =>
      simp only []
      split
      · have hm : minDur a others ∈ a :: others := minDur_mem a others
        rw [← hft] at hm
        have := List.of_mem_filter hm
        exact decide_eq_true_iff.1 this
      · rfl

end JPHB

namespace JPHB

theorem addTargets_benchs (bn : String) (ps : List (String × List String)) :
    ∀ (σ : SelState) (added : Bool), (addTargets bn ps σ added).1.benchs = σ.benchs := by
  induction ps with
  | nil => intro σ added; rfl
  | cons p rest ih =>
      intro σ added
      rw [addTargets]
      split
      · exact ih σ added
      · exact ih _ true

theorem addTargets_covered_mono (bn : String) (ps : List (String × List String)) :
    ∀ (σ : SelState) (added : Bool) (c : String),
      σ.covered c ⊆ (addTargets bn ps σ added).1.covered c := by
  induction ps with
  | nil => intro σ added c; exact Finset.Subset.refl _
  | cons p rest ih =>
      intro σ added c
      rw [addTargets]
      split
      · exact ih σ added c
      · refine Finset.Subset.trans ?_ (ih _ true c)
        by_cases hc : c = p.1
        · subst hc
          simp only [if_pos rfl]
          exact Finset.subset_union_left
        · simp only [if_neg hc]
          exact Finset.Subset.refl _

theorem addTargets_covers (bn : String) (ps : List (String × List String)) :
    ∀ (σ : SelState) (added : Bool) (p : String × List String), p ∈ ps →
      p.2.toFinset ⊆ (addTargets bn ps σ added).1.covered p.1 := by
  induction ps with
  | nil => intro σ added p hp; exact absurd hp (List.not_mem_nil p)
  | cons q rest ih =>
      intro σ added p hp
      rw [addTargets]
      rcases List.mem_cons.1 hp with rfl | hp'
      · split
        · next hq =>
            have hsub : p.2.toFinset ⊆ σ.covered p.1 := by
              intro x hx
              by_contra hxn
              have : x ∈ p.2.toFinset \ σ.covered p.1 := Finset.mem_sdiff.2 ⟨hx, hxn⟩
              rw [hq] at this
              exact absurd this (Finset.not_mem_empty x)
            exact Finset.Subset.trans hsub (addTargets_covered_mono bn rest σ added p.1)
        · refine Finset.Subset.trans ?_ (addTargets_covered_mono bn rest _ true p.1)
          intro x hx
          simp only [if_pos rfl]
          by_cases hxc : x ∈ σ.covered p.1
          · exact Finset.mem_union_left _ hxc
          · exact Finset.mem_union_right _ (Finset.mem_sdiff.2 ⟨hx, hxc⟩)
      · split
        · exact ih σ added p hp'
        · exact ih _ true p hp'

theorem addTargets_added_true (bn : String) (ps : List (String × List String)) :
    ∀ σ : SelState, (addTargets bn ps σ true).2 = true := by
  induction ps with
  | nil => intro σ; rfl
  | cons q rest ih =>
      intro σ
      rw [addTargets]
      split
      · exact ih σ
      · exact ih _

theorem addTargets_added_of (bn : String) (ps : List (String × List String)) :
    ∀ (σ : SelState) (added : Bool) (p : String × List String), p ∈ ps →
      p.2.toFinset \ σ.covered p.1 ≠ ∅ → (addTargets bn ps σ added).2 = true := by
  induction ps with
  | nil => intro σ added p hp; exact absurd hp (List.not_mem_nil p)
  | cons q rest ih =>
      intro σ added p hp hne
      rw [addTargets]
      rcases List.mem_cons.1 hp with rfl | hp'
      · split
        · next hq => exact absurd hq hne
        · exact addTargets_added_true bn rest _
      · split
        · exact ih σ added p hp' hne
        · exact addTargets_added_true bn rest _

theorem addTargets_covered_sub (bn : String) (ps : List (String × List String)) :
    ∀ (σ : SelState) (added : Bool) (c : String) (x : String),
      x ∈ (addTargets bn ps σ added).1.covered c →
      x ∈ σ.covered c ∨ ∃ p ∈ ps, p.1 = c ∧ x ∈ p.2 := by
  induction ps with
  | nil => intro σ added c x hx; exact Or.inl hx
  | cons q rest ih =>
      intro σ added c x hx
      rw [addTargets] at hx
      revert hx
      split
      · intro hx
        rcases ih σ added c x hx with h | ⟨p, hp, hpc, hxp⟩
        · exact Or.inl h
        · exact Or.inr ⟨p, List.mem_cons_of_mem q hp, hpc, hxp⟩
      · intro hx
        rcases ih _ true c x hx with h | ⟨p, hp, hpc, hxp⟩
        · by_cases hc : c = q.1
          · subst hc
            simp only [if_pos rfl] at h
            rcases Finset.mem_union.1 h with h' | h'
            · exact Or.inl h'
            · have := (Finset.mem_sdiff.1 h').1
              exact Or.inr ⟨q, List.mem_cons_self q rest, rfl, List.mem_toFinset.1 this⟩
          · simp only [if_neg hc] at h
            exact Or.inl h
        · exact Or.inr ⟨p, List.mem_cons_of_mem q hp, hpc, hxp⟩

theorem selStep_eq_none (σ : SelState)
    (hs : stableSort (benchLE σ.covered) σ.benchs = []) : selStep σ = none := by
  unfold selStep
  rw [hs]

theorem selStep_eq (σ : SelState) (best : Bench) (rest : List Bench)
    (hs : stableSort (benchLE σ.covered) σ.benchs = best :: rest) :
    selStep σ = some (
      if (addTargets (selectAlt σ.covered best rest).name (selectAlt σ.covered best rest).targets
            { σ with benchs := best :: rest } false).2 = true
      then { (addTargets (selectAlt σ.covered best rest).name
               (selectAlt σ.covered best rest).targets
               { σ with benchs := best :: rest } false).1
             with benchs := ((best :: rest).filter
               (fun b => b.name ≠ (selectAlt σ.covered best rest).name)) }
      else (addTargets (selectAlt σ.covered best rest).name
              (selectAlt σ.covered best rest).targets
              { σ with benchs := best :: rest } false).1) := by
  unfold selStep
  rw [hs]

theorem selGuard_false (cids : List String) (allM : String → Finset String)
    (covered : String → Finset String) (h : selGuard cids allM covered = false) :
    ∀ c ∈ cids, covered c = allM c := by
  intro c hc
  have := List.any_eq_false.1 h c hc
  simpa using this

end JPHB

namespace JPHB

theorem foldr_union_mem (c m : String) (l : List (String × List String)) :
    m ∈ l.foldr (fun p s => if p.1 = c then p.2.toFinset ∪ s else s) ∅ ↔
      ∃ p ∈ l, p.1 = c ∧ m ∈ p.2 := by
  induction l with
  | nil => simp
  | cons q rest ih =>
      rw [List.foldr_cons]
      by_cases hq : q.1 = c
      · rw [if_pos hq]
        constructor
        · intro h
          rcases Finset.mem_union.1 h with h' | h'
          · exact ⟨q, List.mem_cons_self q rest, hq, List.mem_toFinset.1 h'⟩
          · obtain ⟨p, hp, hpc, hmp⟩ := ih.1 h'
            exact ⟨p, List.mem_cons_of_mem q hp, hpc, hmp⟩
        · rintro ⟨p, hp, hpc, hmp⟩
          rcases List.mem_cons.1 hp with rfl | hp'
          · exact Finset.mem_union_left _ (List.mem_toFinset.2 hmp)
          · exact Finset.mem_union_right _ (ih.2 ⟨p, hp', hpc, hmp⟩)
      · rw [if_neg hq]
        constructor
        · intro h
          obtain ⟨p, hp, hpc, hmp⟩ := ih.1 h
          exact ⟨p, List.mem_cons_of_mem q hp, hpc, hmp⟩
        · rintro ⟨p, hp, hpc, hmp⟩
          rcases List.mem_cons.1 hp with rfl | hp'
          · exact absurd hpc hq
          · exact ih.2 ⟨p, hp', hpc, hmp⟩

theorem mem_allMethods (benchs : List Bench) (c m : String) :
    m ∈ allMethods benchs c ↔ ∃ b ∈ benchs, ∃ p ∈ b.targets, p.1 = c ∧ m ∈ p.2 := by
  rw [allMethods, foldr_union_mem]
  constructor
  · rintro ⟨p, hp, hpc, hmp⟩
    obtain ⟨ts, hts, hpts⟩ := List.mem_flatten.1 hp
    obtain ⟨b, hb, rfl⟩ := List.mem_map.1 hts
    exact ⟨b, hb, p, hpts, hpc, hmp⟩
  · rintro ⟨b, hb, p, hp, hpc, hmp⟩
    exact ⟨p, List.mem_flatten.2 ⟨b.targets, List.mem_map_of_mem Bench.targets hb, hp⟩,
           hpc, hmp⟩

theorem selStep_progress (allM : String → Finset String) (cids : List String) (σ : SelState)
    (hInv : SelInv allM σ) (hg : selGuard cids allM σ.covered = true) :
    ∃ σ', selStep σ = some σ' ∧ SelInv allM σ' ∧
      σ'.benchs.length < σ.benchs.length ∧
      (∀ c, σ.covered c ⊆ σ'.covered c) ∧
      (∃ c x, x ∉ σ.covered c ∧ x ∈ σ'.covered c) := by
  obtain ⟨hnd, hInv1, hInv2, hInv3⟩ := hInv
  obtain ⟨c0, hc0mem, hc0ne⟩ : ∃ c ∈ cids, σ.covered c ≠ allM c := by
    obtain ⟨c0, hc0, hdec⟩ := List.any_eq_true.1 hg
    exact ⟨c0, hc0, decide_eq_true_iff.1 hdec⟩
  obtain ⟨m0, hm0all, hm0nc⟩ : ∃ m0 ∈ allM c0, m0 ∉ σ.covered c0 :=
    Finset.exists_of_ssubset ((hInv2 c0).ssubset_of_ne hc0ne)
  obtain ⟨b0, hb0, p0, hp0, hp0c, hm0p⟩ := hInv1 c0 m0 hm0all hm0nc
  have hperm0 := stableSort_perm (benchLE σ.covered) σ.benchs
  cases hsort : stableSort (benchLE σ.covered) σ.benchs with
  | nil =>
      rw [hsort] at hperm0
      exact absurd (hperm0.symm.mem_iff.1 hb0) (List.not_mem_nil b0)
  | cons best rest =>
      have hperm : (best :: rest).Perm σ.benchs := by rw [← hsort]; exact hperm0
      have hheadle : ∀ x ∈ σ.benchs, x = best ∨ benchLE σ.covered best x = true :=
        stableSort_head_min _ (benchLE_trans σ.covered) (benchLE_total σ.covered)
          σ.benchs best rest hsort
      have hcount_best : ∀ x ∈ σ.benchs, newCount σ.covered x ≤ newCount σ.covered best := by
        intro x hx
        rcases hheadle x hx with rfl | hle
        · exact le_refl _
        · simp only [benchLE, decide_eq_true_iff] at hle
          rcases hle with h | h
          · exact le_of_lt h
          · exact le_of_eq h.1.symm
      have hb0pos : 0 < newCount σ.covered b0 := by
        rw [newCount]
        have hterm : (p0.2.toFinset \ σ.covered p0.1).card ∈
            b0.targets.map (fun p => (p.2.toFinset \ σ.covered p.1).card) :=
          List.mem_map_of_mem _ hp0
        have hpos : 0 < (p0.2.toFinset \ σ.covered p0.1).card := by
          apply Finset.card_pos.2
          exact ⟨m0, Finset.mem_sdiff.2 ⟨List.mem_toFinset.2 hm0p, by rw [hp0c]; exact hm0nc⟩⟩
        exact lt_of_lt_of_le hpos
          (List.single_le_sum (fun x _ => Nat.zero_le x) _ hterm)
      have hchosen_mem_sorted : selectAlt σ.covered best rest ∈ best :: rest :=
        selectAlt_mem σ.covered best rest
      have hchosen_mem : selectAlt σ.covered best rest ∈ σ.benchs :=
        hperm.mem_iff.1 hchosen_mem_sorted
      have hchosen_count : 0 < newCount σ.covered (selectAlt σ.covered best rest) := by
        rw [selectAlt_count]
        exact lt_of_lt_of_le hb0pos (hcount_best b0 hb0)
      obtain ⟨q0, hq0, hq0ne⟩ : ∃ q ∈ (selectAlt σ.covered best rest).targets,
          q.2.toFinset \ σ.covered q.1 ≠ ∅ := by
        by_contra hno
        push_neg at hno
        have hz : newCount σ.covered (selectAlt σ.covered best rest) = 0 := by
          rw [newCount]
          apply List.sum_eq_zero
          intro x hx
          obtain ⟨p, hp, rfl⟩ := List.mem_map.1 hx
          rw [hno p hp]
          exact Finset.card_empty
        omega
      have hadded : (addTargets (selectAlt σ.covered best rest).name
          (selectAlt σ.covered best rest).targets { σ with benchs := best :: rest } false).2
            = true :=
        addTargets_added_of _ _ { σ with benchs := best :: rest } false q0 hq0 hq0ne
      have hstep := selStep_eq σ best rest hsort
      rw [if_pos hadded] at hstep
      refine ⟨_, hstep, ?_, ?_, ?_, ?_⟩
      · -- the invariant survives the step
        refine ⟨?_, ?_, ?_, ?_⟩
        · -- name uniqueness
          have hnd2 : ((best :: rest).map Bench.name).Nodup :=
            ((hperm.map Bench.name).nodup_iff).2 hnd
          dsimp only
          exact List.Sublist.nodup
            (List.Sublist.map Bench.name (List.filter_sublist (best :: rest))) hnd2
        · -- every uncovered method still has a provider
          dsimp only
          intro c m hmall hmns
          have hmono := addTargets_covered_mono (selectAlt σ.covered best rest).name
            (selectAlt σ.covered best rest).targets { σ with benchs := best :: rest } false c
          have hmnσ : m ∉ σ.covered c := fun hin => hmns (hmono hin)
          obtain ⟨b1, hb1, p1, hp1, hp1c, hmp1⟩ := hInv1 c m hmall hmnσ
          by_cases hbn : b1.name = (selectAlt σ.covered best rest).name
          · exfalso
            have hb1eq : b1 = selectAlt σ.covered best rest :=
              List.inj_on_of_nodup_map hnd hb1 hchosen_mem hbn
            apply hmns
            have := addTargets_covers (selectAlt σ.covered best rest).name
              (selectAlt σ.covered best rest).targets { σ with benchs := best :: rest } false
              p1 (by rw [← hb1eq]; exact hp1)
            rw [hp1c] at this
            exact this (List.mem_toFinset.2 hmp1)
          · refine ⟨b1, ?_, p1, hp1, hp1c, hmp1⟩
            simp only [List.mem_filter]
            exact ⟨hperm.mem_iff.2 hb1, by simpa using hbn⟩
        · -- covered sets stay inside the target union
          dsimp only
          intro c x hx
          rcases addTargets_covered_sub (selectAlt σ.covered best rest).name
            (selectAlt σ.covered best rest).targets { σ with benchs := best :: rest } false
            c x hx with h | ⟨p, hp, hpc, hxp⟩
          · exact hInv2 c h
          · rw [← hpc]
            exact hInv3 _ hchosen_mem p hp x hxp
        · -- remaining benchmarks' targets stay inside the target union
          dsimp only
          intro b hb p hp m hm
          have hb' : b ∈ best :: rest := (List.mem_filter.1 hb).1
          exact hInv3 b (hperm.mem_iff.1 hb') p hp m hm
      · -- the benchmark list shrinks
        dsimp only
        have hlt : ((best :: rest).filter
            (fun b => b.name ≠ (selectAlt σ.covered best rest).name)).length
              < (best :: rest).length := by
          apply List.length_filter_lt_length_iff_exists.2
          exact ⟨selectAlt σ.covered best rest, hchosen_mem_sorted, by simp⟩
        calc ((best :: rest).filter
              (fun b => b.name ≠ (selectAlt σ.covered best rest).name)).length
            < (best :: rest).length := hlt
          _ = σ.benchs.length := hperm.length_eq
      · -- the covered sets only grow
        dsimp only
        intro c
        exact addTargets_covered_mono _ _ { σ with benchs := best :: rest } false c
      · -- and they grow strictly somewhere
        dsimp only
        obtain ⟨x, hx⟩ := Finset.nonempty_iff_ne_empty.2 hq0ne
        obtain ⟨hx2, hxnc⟩ := Finset.mem_sdiff.1 hx
        refine ⟨q0.1, x, hxnc, ?_⟩
        exact addTargets_covers _ _ { σ with benchs := best :: rest } false q0 hq0 hx2

end JPHB

namespace JPHB

theorem selLoop_reaches (cids : List String) (allM : String → Finset String) :
    ∀ (fuel : ℕ) (σ : SelState), SelInv allM σ → σ.benchs.length ≤ fuel →
      ∃ σf, selLoop cids allM fuel σ = some σf ∧ ∀ c ∈ cids, σf.covered c = allM c := by
  intro fuel
  induction fuel with
  | zero =>
      intro σ hInv hlen
      cases hguard : selGuard cids allM σ.covered with
      | false =>
          exact ⟨σ, by simp [selLoop, hguard], selGuard_false cids allM σ.covered hguard⟩
      | true =>
          exfalso
          obtain ⟨σ', _, _, hlt, _, _⟩ := selStep_progress allM cids σ hInv hguard
          omega
  | succ f ih =>
      intro σ hInv hlen
      cases hguard : selGuard cids allM σ.covered with
      | false =>
          exact ⟨σ, by simp [selLoop, hguard], selGuard_false cids allM σ.covered hguard⟩
      | true =>
          obtain ⟨σ', hstep, hInv', hlt, _, _⟩ := selStep_progress allM cids σ hInv hguard
          obtain ⟨σf, hloop, hcov⟩ := ih σ' hInv' (by omega)
          refine ⟨σf, ?_, hcov⟩
          rw [selLoop, if_pos hguard, hstep]
          exact hloop

theorem minimize_entry_inv (benchs : List Bench) (hnd : (benchs.map Bench.name).Nodup) :
    SelInv (allMethods benchs)
      { benchs := stableSort (fun a b => a.name ≤ b.name) benchs,
        covered := fun _ => ∅, selected := fun _ _ => ∅ } := by
  have hperm := stableSort_perm (fun a b => a.name ≤ b.name) benchs
  refine ⟨?_, ?_, ?_, ?_⟩
  · exact ((hperm.map Bench.name).nodup_iff).2 hnd
  · intro c m hm _
    obtain ⟨b, hb, p, hp, hpc, hmp⟩ := (mem_allMethods benchs c m).1 hm
    exact ⟨b, hperm.mem_iff.2 hb, p, hp, hpc, hmp⟩
  · intro c
    exact Finset.empty_subset _
  · intro b hb p hp m hm
    exact (mem_allMethods benchs p.1 m).2 ⟨b, hperm.mem_iff.1 hb, p, hp, rfl, hm⟩

theorem minimize_full_coverage (benchs : List Bench)
    (hnd : (benchs.map Bench.name).Nodup) :
    ∃ σf, minimizeAndDistribute benchs = some σf ∧
      ∀ c ∈ commitIds benchs, σf.covered c = allMethods benchs c := by
  rw [minimizeAndDistribute]
  exact selLoop_reaches (commitIds benchs) (allMethods benchs) benchs.length
    _ (minimize_entry_inv benchs hnd)
    (le_of_eq (stableSort_perm (fun a b => a.name ≤ b.name) benchs).length_eq)

/-- Claim C1: in each iteration, with the current covered sets, the
benchmark committed to is the head of the stable sort — proved here to
carry the maximum `newCoverageCount` over all remaining benchmarks, with
ties broken toward lower `probeDuration` — except that when other
benchmarks of exactly the same `newCoverageCount` exist and the fastest of
them has `probeDuration` below the top choice's `probeDuration / 2.0`,
that fastest equal-coverage alternative is chosen instead. -/
theorem C1_choice_rule (covered : String → Finset String) (benchs : List Bench)
    (best : Bench) (rest : List Bench)
    (hs : stableSort (benchLE covered) benchs = best :: rest) :
    chooseBenchmark covered benchs = some (selectAlt covered best rest) ∧
    (∀ b ∈ benchs, newCount covered b ≤ newCount covered best) ∧
    (∀ b ∈ benchs, newCount covered b = newCount covered best →
        best.duration ≤ b.duration) ∧
    (rest.filter (fun b => newCount covered b = newCount covered best) = [] →
        selectAlt covered best rest = best) ∧
    (∀ (a : Bench) (others : List Bench),
        rest.filter (fun b => newCount covered b = newCount covered best) = a :: others →
        (minDur a others ∈ a :: others ∧
          ∀ x ∈ a :: others, (minDur a others).duration ≤ x.duration) ∧
        ((minDur a others).duration < best.duration / 2 →
            selectAlt covered best rest = minDur a others) ∧
        (¬ (minDur a others).duration < best.duration / 2 →
            selectAlt covered best rest = best)) := by
  have hheadle := stableSort_head_min _ (benchLE_trans covered) (benchLE_total covered)
    benchs best rest hs
  refine ⟨?_, ?_, ?_, ?_, ?_⟩
  · rw [chooseBenchmark, hs]
  · intro b hb
    rcases hheadle b hb with rfl | hle
    · exact le_refl _
    · simp only [benchLE, decide_eq_true_iff] at hle
      rcases hle with h | h
      · exact le_of_lt h
      · exact le_of_eq h.1.symm
  · intro b hb hcnt
    rcases hheadle b hb with rfl | hle
    · exact le_refl _
    · simp only [benchLE, decide_eq_true_iff] at hle
      rcases hle with h | h
      · omega
      · exact h.2
  · intro hft
    rw [selectAlt, hft]
  · intro a others hft
    have hdiv : ((minDur a others).duration < best.duration / 2) ↔
        (minDur a others).duration * 2 < best.duration :=
      lt_div_iff₀ (by norm_num)
    refine ⟨⟨minDur_mem a others, minDur_le a others⟩, ?_, ?_⟩
    · intro hcond
      rw [selectAlt, hft]
      simp only []
      rw [if_pos]
      exact hdiv.1 hcond
    · intro hcond
      rw [selectAlt, hft]
      simp only []
      rw [if_neg]
      intro hlt
      exact hcond (hdiv.2 hlt)

/-- Witness for C1 at two benchmarks: `B2` covers two methods, `B1` one,
so the sort puts `B2` first and the chooser commits to `selectAlt` of that
head. -/
theorem C1_choice_rule_witness :
    chooseBenchmark (fun _ => ∅)
        [⟨"B1", [("c", ["m"])], 3⟩, ⟨"B2", [("c", ["m", "n"])], 5⟩]
      = some (selectAlt (fun _ => ∅) ⟨"B2", [("c", ["m", "n"])], 5⟩
          [⟨"B1", [("c", ["m"])], 3⟩]) :=
  (C1_choice_rule (fun _ => ∅)
    [⟨"B1", [("c", ["m"])], 3⟩, ⟨"B2", [("c", ["m", "n"])], 5⟩]
    ⟨"B2", [("c", ["m", "n"])], 5⟩ [⟨"B1", [("c", ["m"])], 3⟩] (by decide)).1

end JPHB

namespace JPHB

/-- Amended claim C2 (theorem): the "cannot cover" situation never arises
at the function's interface, because the per-commit target set
`all_methods` is computed as the union of the available benchmarks'
targets; for every input with unique benchmark names the loop terminates
with every commit's target set fully covered, and the function returns
only the `SelectionResult` — no residual uncovered set exists or is
reported. -/
theorem C2_always_full_coverage (benchs : List Bench)
    (hnd : (benchs.map Bench.name).Nodup) :
    ∃ σf, minimizeAndDistribute benchs = some σf ∧
      ∀ c ∈ commitIds benchs, σf.covered c = allMethods benchs c :=
  minimize_full_coverage benchs hnd

/-- Witness for the amended C2 at one benchmark covering one method. -/
theorem C2_always_full_coverage_witness :
    ∃ σf, minimizeAndDistribute [⟨"B1", [("c1", ["m1"])], 3⟩] = some σf ∧
      ∀ c ∈ commitIds [⟨"B1", [("c1", ["m1"])], 3⟩],
        σf.covered c = allMethods [⟨"B1", [("c1", ["m1"])], 3⟩] c :=
  C2_always_full_coverage [⟨"B1", [("c1", ["m1"])], 3⟩] (by decide)

/-- Counterexample to claim C2 as stated: in a selector state where a
target method (`m2`) is reachable through no remaining benchmark — the
situation the claim describes, expressible only because the loop's target
map is taken as an independent input here — the loop does not "terminate
and return the partial result with the residual set": the state is a
fixpoint of the loop body (the best benchmark adds nothing, so nothing is
removed) and the loop never returns at all, with no code path producing a
residual set. -/
theorem C2_counterexample :
    selGuard ["c1"] (fun c => if c = "c1" then {"m1", "m2"} else ∅)
        (fun c => if c = "c1" then {"m1"} else (∅ : Finset String)) = true ∧
    selStep ⟨[⟨"B", [("c1", ["m1"])], 1⟩],
        fun c => if c = "c1" then {"m1"} else ∅, fun _ _ => ∅⟩
      = some ⟨[⟨"B", [("c1", ["m1"])], 1⟩],
          fun c => if c = "c1" then {"m1"} else ∅, fun _ _ => ∅⟩ ∧
    selLoop ["c1"] (fun c => if c = "c1" then {"m1", "m2"} else ∅) 5
      ⟨[⟨"B", [("c1", ["m1"])], 1⟩],
        fun c => if c = "c1" then {"m1"} else ∅, fun _ _ => ∅⟩ = none :=
  ⟨by decide, rfl, rfl⟩

/-- Claim C4: the selection loop is monotone (covered sets only grow under
any step), every iteration taken from a state satisfying the loop
invariant strictly adds coverage and shrinks the benchmark list, and from
the function's entry the loop returns within `numBenchmarks` iterations
(the fuel of the model is exactly `benchs.length`). -/
theorem C4_monotone_terminating :
    (∀ σ σ', selStep σ = some σ' → ∀ c, σ.covered c ⊆ σ'.covered c) ∧
    (∀ (allM : String → Finset String) (cids : List String) (σ : SelState),
        SelInv allM σ → selGuard cids allM σ.covered = true →
        ∃ σ', selStep σ = some σ' ∧
          (∃ c x, x ∉ σ.covered c ∧ x ∈ σ'.covered c) ∧
          σ'.benchs.length < σ.benchs.length) ∧
    (∀ benchs : List Bench, (benchs.map Bench.name).Nodup →
        (minimizeAndDistribute benchs).isSome = true) := by
  refine ⟨?_, ?_, ?_⟩
  · intro σ σ' hstep c
    cases hsort : stableSort (benchLE σ.covered) σ.benchs with
    | nil => rw [selStep_eq_none σ hsort] at hstep; exact absurd hstep (by simp)
    | cons best rest =>
        rw [selStep_eq σ best rest hsort] at hstep
        have hσ' := Option.some.inj hstep
        rw [← hσ']
        split
        · dsimp only
          exact addTargets_covered_mono _ _ { σ with benchs := best :: rest } false c
        · exact addTargets_covered_mono _ _ { σ with benchs := best :: rest } false c
  · intro allM cids σ hInv hg
    obtain ⟨σ', hstep, _, hlt, _, hstrict⟩ := selStep_progress allM cids σ hInv hg
    exact ⟨σ', hstep, hstrict, hlt⟩
  · intro benchs hnd
    obtain ⟨σf, hrun, _⟩ := minimize_full_coverage benchs hnd
    rw [hrun]
    rfl

/-- Witness for C4: with one benchmark the run returns (within one
iteration of fuel). -/
theorem C4_monotone_terminating_witness :
    (minimizeAndDistribute [⟨"B1", [("c1", ["m1"])], 3⟩]).isSome = true :=
  C4_monotone_terminating.2.2 [⟨"B1", [("c1", ["m1"])], 3⟩] (by decide)

end JPHB
